import Mathlib

/-!
# Verification of the PageRank estimator (src/pagerank.py)

Shallow embedding of the three core functions of the source file —
`transition_model`, `sample_pagerank`, `iterate_pagerank` (with its helper
`calcPageRank`) — and proofs about them.

Modelling conventions:
* Page identifiers are opaque strings in the source; they are modelled as
  naturals.
* Python dicts (insertion-ordered, distinct keys) are modelled as association
  lists; assignment to an existing key rewrites the entry in place, assignment
  to a fresh key appends at the end, matching dict semantics.
* Python floats are modelled as rationals; `round(x, 4)` is modelled as
  rounding to the nearest multiple of `1/10000` (`round4`).
* A `KeyError` / `ValueError` escaping a function is modelled by returning
  `none`.
* The unbounded `while True` convergence loop of `iterate_pagerank` is
  modelled with explicit fuel; `none` means the loop did not finish within
  the given fuel.
* The random source of `sample_pagerank` is modelled as an explicit stream of
  draws: the initial `randrange` index, and for each walk step the two
  `random.random()` draws and the `randrange` index the step may consume.
* `iterate_pagerank` mutates its `corpus` argument in the source (the sink
  rewrite is done in place); the model therefore returns, together with the
  ranks, the state of the caller's graph after the call.
-/

set_option autoImplicit false

namespace PageRank

abbrev Page := Nat
abbrev Graph := List (Page × List Page)
abbrev Ranks := List (Page × ℚ)
abbrev Dist := List (Page × ℚ)

/-- The module-level constant `SAMPLES = 10000` of the source. -/
def SAMPLES : Nat := 10000

/-- Python's `round(x, 4)`: round to the nearest multiple of `1/10000`. -/
def round4 (x : ℚ) : ℚ := (⌊x * 10000 + 1 / 2⌋ : ℤ) / 10000

/-- The key list of a dict (in insertion order). -/
def keys (g : List (Page × List Page)) : List Page := g.map Prod.fst

/-- `corpus[page]` on the graph dict: `some` the outbound list, or `none`
(a `KeyError`) when the page is absent. -/
def getl : Graph → Page → Option (List Page)
  | [], _ => none
  | (q, ls) :: rest, p => if q = p then some ls else getl rest p

/-- `ranks[p]` on a numeric dict, defaulting to `0` when absent (only ever
used at keys that are present). -/
def getv : List (Page × ℚ) → Page → ℚ
  | [], _ => 0
  | (q, v) :: rest, p => if q = p then v else getv rest p

/-- `m[k] = v` on a numeric dict: rewrite the entry when the key exists,
append the pair when it is fresh. -/
def dinsert : Dist → Page → ℚ → Dist
  | [], k, v => [(k, v)]
  | (q, w) :: rest, k, v =>
      if q = k then (k, v) :: rest else (q, w) :: dinsert rest k v

/-- `ranks[p] = v` where the key is expected to exist (no append). -/
def setv : Ranks → Page → ℚ → Ranks
  | [], _, _ => []
  | (q, w) :: rest, p, v =>
      if q = p then (p, v) :: rest else (q, w) :: setv rest p v

/-- `ranks[p] += 1`; `none` models the `KeyError` raised when `p` is absent. -/
def rincr : Ranks → Page → Option Ranks
  | [], _ => none
  | (q, v) :: rest, p =>
      if q = p then some ((q, v + 1) :: rest)
      else (rincr rest p).map (fun r => (q, v) :: r)

/-- Sum of the values of a numeric dict. -/
def vsum (m : List (Page × ℚ)) : ℚ := (m.map Prod.snd).sum

/-- The Link Graph invariant of the data model: distinct keys, duplicate-free
outbound lists, no self links, every linked-to page a key of the graph. -/
def ValidGraph (g : Graph) : Prop :=
  (keys g).Nodup ∧ ∀ pr ∈ g, pr.2.Nodup ∧ pr.1 ∉ pr.2 ∧ ∀ q ∈ pr.2, q ∈ keys g

/-- `transition_model(corpus, page, damping_factor)` from the source.

`none` models the `KeyError` raised by `corpus[page]` when `page` is not a
key of the graph.  In the zero-outlink branch every page of the corpus gets
`1/len(corpus)`; otherwise the model dict gets `page` first and then, in
order, each linked page, with the source's 4-decimal rounding. -/
def transition_model (corpus : Graph) (page : Page) (damping_factor : ℚ) :
    Option Dist :=
  match getl corpus page with
  | none => none
  | some links =>
    if links.length = 0 then
      some (corpus.map (fun pr => (pr.1, 1 / (corpus.length : ℚ))))
    else
      let k : ℚ := links.length
      let m0 : Dist := [(page, round4 ((1 - damping_factor) / (k + 1)))]
      some (links.foldl
        (fun m nextPage =>
          dinsert m nextPage
            (round4 ((1 - damping_factor) / (k + 1) + damping_factor * (1 / k))))
        m0)

/-- The draws one iteration of the sampling walk may consume: the
follow-vs-jump draw `r1`, the cumulative-selection draw `r2`, and the
`randrange` index `idx` for the uniform jump (one of `r2`/`idx` is used,
depending on the branch taken, exactly as in the source). -/
structure StepDraws where
  r1 : ℚ
  r2 : ℚ
  idx : Nat

/-- The cumulative selection of the source: walk the model dict in key
order, accumulate the mass, return the first page whose cumulative sum is
`≥` the draw; `none` when the loop falls through without the `break`. -/
def selectFromModel : Dist → ℚ → ℚ → Option Page
  | [], _, _ => none
  | (p, w) :: rest, r, acc =>
      if r ≤ acc + w then some p else selectFromModel rest r (acc + w)

/-- One iteration of the walk loop of `sample_pagerank`: compute the
transition model of the current page (a `KeyError` propagates as `none`),
then either advance through the cumulative distribution or jump uniformly. -/
def sampleStep (corpus : Graph) (d : ℚ) (nb : Nat) (cur : Page)
    (s : StepDraws) : Option Page :=
  match transition_model corpus cur d with
  | none => none
  | some model =>
    if s.r1 ≥ 1 - d then
      some ((selectFromModel model s.r2 0).getD cur)
    else
      some ((keys corpus).getD (s.idx % nb) 0)

/-- The walk loop of `sample_pagerank`, one `StepDraws` per iteration. -/
def sampleLoop (corpus : Graph) (d : ℚ) (nb : Nat) :
    Nat → (Nat → StepDraws) → Ranks → Page → Option Ranks
  | 0, _, ranks, _ => some ranks
  | count + 1, draws, ranks, cur =>
    match sampleStep corpus d nb cur (draws 0) with
    | none => none
    | some nextPage =>
      match rincr ranks nextPage with
      | none => none
      | some ranks2 =>
          sampleLoop corpus d nb count (fun i => draws (i + 1)) ranks2 nextPage

/-- `sample_pagerank(corpus, damping_factor, n)` from the source, with the
random source made explicit (`firstIdx` for the initial `randrange`, `draws`
for the walk steps).  `none` models the `ValueError` of `randrange(0)` on an
empty corpus and any `KeyError` inside the walk.  Note the source divides
the final visit counts by the global `SAMPLES`, not by `n`. -/
def sample_pagerank (corpus : Graph) (damping_factor : ℚ) (n : Int)
    (firstIdx : Nat) (draws : Nat → StepDraws) : Option Ranks :=
  if corpus.length = 0 then none
  else
    let ranks : Ranks := corpus.map (fun pr => (pr.1, (0 : ℚ)))
    let nbOfPages := corpus.length
    let currentPage := (keys corpus).getD (firstIdx % nbOfPages) 0
    match rincr ranks currentPage with
    | none => none
    | some ranks1 =>
      match sampleLoop corpus damping_factor nbOfPages (n - 1).toNat draws
          ranks1 currentPage with
      | none => none
      | some ranks2 => some (ranks2.map (fun pr => (pr.1, pr.2 / (SAMPLES : ℚ))))

/-- `calcPageRank(pageToCalculate, corpus, ranks, damping_factor)` from the
source, including its per-term 4-decimal rounding. -/
def calcPageRank (pageToCalculate : Page) (corpus : Graph) (ranks : Ranks)
    (damping_factor : ℚ) : ℚ :=
  let sumOfRightSide := corpus.foldl
    (fun s pr =>
      if pageToCalculate ∈ pr.2 then
        s + round4 (getv ranks pr.1 / (pr.2.length : ℚ))
      else s)
    0
  round4 ((1 - damping_factor) / (corpus.length : ℚ)) +
    round4 (damping_factor * sumOfRightSide)

/-- The sink-handling pass of `iterate_pagerank` (source lines 142–145):
every page with an empty outbound list gets the full key set, in place. -/
def sinkRewrite (corpus : Graph) : Graph :=
  corpus.map (fun pr => if pr.2.length = 0 then (pr.1, keys corpus) else pr)

/-- One pass of `for page in ranks: ranks[page] = calcPageRank(...)` — the
assignment is rewritten one page at a time, so later pages read values
already updated in this round. -/
def iterateRound (corpus : Graph) (damping : ℚ) :
    List Page → Ranks → Ranks
  | [], ranks => ranks
  | p :: rest, ranks =>
      iterateRound corpus damping rest
        (setv ranks p (calcPageRank p corpus ranks damping))

/-- The convergence test of the source: no page moved by more than `0.001`
between `prevRanks` and the freshly written `ranks`. -/
def ranksConverged (prev next : Ranks) : Bool :=
  next.all (fun pr => decide (|getv prev pr.1 - pr.2| ≤ 1 / 1000))

/-- The `while True` loop of `iterate_pagerank`, with explicit fuel. -/
def iterateLoop (corpus : Graph) (damping : ℚ) :
    Nat → Ranks → Option Ranks
  | 0, _ => none
  | fuel + 1, ranks =>
    let next := iterateRound corpus damping (ranks.map Prod.fst) ranks
    if ranksConverged ranks next then some next
    else iterateLoop corpus damping fuel next

/-- `iterate_pagerank(corpus, damping_factor)` from the source.  The result
pairs the returned ranks with the state of the caller's graph after the call
(the source performs the sink rewrite in place on `corpus`).  `none` means
the convergence loop did not finish within `fuel` rounds. -/
def iterate_pagerank (corpus : Graph) (damping_factor : ℚ) (fuel : Nat) :
    Option (Ranks × Graph) :=
  let ranks : Ranks := corpus.map (fun pr => (pr.1, 1 / (corpus.length : ℚ)))
  let corpus2 := sinkRewrite corpus
  (iterateLoop corpus2 damping_factor fuel ranks).map (fun r => (r, corpus2))

/-- The update rule as the specification words it: every page's new rank is
computed from the previous round's full assignment (simultaneous update). -/
def simultaneousRound (corpus : Graph) (damping : ℚ) (ranks : Ranks) : Ranks :=
  ranks.map (fun pr => (pr.1, calcPageRank pr.1 corpus ranks damping))

/-! ### Concrete graphs used in the proofs -/

/-- The two-page cycle `{A: {B}, B: {A}}` (A = 0, B = 1). -/
def exAB : Graph := [(0, [1]), (1, [0])]

/-- A three-page graph `{A: {B}, B: {C}, C: {B}}` on which the in-place
round update and the simultaneous round update differ. -/
def exSeq : Graph := [(0, [1]), (1, [2]), (2, [1])]

/-- A three-page graph `{A: {B}, B: {A}, C: {A}}`; with damping `0.999` the
convergence test stops while the ranks sum to `1.3313`. -/
def exSlow : Graph := [(0, [1]), (1, [0]), (2, [0])]

/-- A three-page graph `{A: {B, C}, B: {}, C: {}}` whose transition model at
`A` exhibits a rounding drift of `1e-4` in the total mass. -/
def exRound : Graph := [(0, [1, 2]), (1, []), (2, [])]

/-- The one-page sink graph `{A: {}}`. -/
def exSink : Graph := [(0, [])]

/-- The initial assignment of `iterate_pagerank`: every page at `1/|pages|`. -/
def uniRanks (g : Graph) : Ranks := g.map (fun pr => (pr.1, 1 / (g.length : ℚ)))

/-- A constant stream of random draws (all zero). -/
def zeroDraws : Nat → StepDraws := fun _ => ⟨0, 0, 0⟩

/-- The spoke pages `[1, …, k]` of a star graph. -/
def starOut (k : Nat) : List Page := List.range' 1 k

/-- The star graph on `k + 1` pages: the hub `0` links to every spoke and
every spoke links back to the hub. -/
def starGraph (k : Nat) : Graph :=
  (0, starOut k) :: (starOut k).map (fun i => (i, [0]))

/-- The 190-page star: with damping `0.9999` the convergence test stops with
the hub at rank `1.0016 > 1`. -/
def exStar : Graph := starGraph 189

end PageRank

/-! ### Claim theorems -/

namespace PageRank

/-- C9: on the graph `{A: {B}, B: {A}}` with damping `0.85`, `iterate_pagerank`
converges (in one round) and returns rank exactly `0.5` for each page. -/
theorem c9_two_page_cycle_halves :
    iterate_pagerank exAB (17 / 20) 1 = some ([(0, 1 / 2), (1, 1 / 2)], exAB) := by
  norm_num [iterate_pagerank, iterateLoop, iterateRound, ranksConverged, calcPageRank,
    sinkRewrite, keys, setv, getv, round4, exAB, List.foldl, abs_le]

/-- C2: with `n = 1` on the two-page graph, `sample_pagerank` divides the
single visit by the global constant `SAMPLES = 10000`, not by `n`; the visited
page gets rank `1/10000` and the values sum to `1/10000`, not `1`. -/
theorem c2_sample_divides_by_samples_constant :
    sample_pagerank exAB (17 / 20) 1 0 zeroDraws = some [(0, 1 / 10000), (1, 0)] ∧
      vsum [((0 : Page), (1 : ℚ) / 10000), (1, 0)] = 1 / 10000 ∧
      ((1 : ℚ) / 10000) ≠ 1 := by
  refine ⟨?_, by norm_num [vsum], by norm_num⟩
  norm_num [sample_pagerank, sampleLoop, rincr, keys, exAB, SAMPLES, zeroDraws]

/-- C1 counterexample: `iterate_pagerank` on the sink graph `{A: {}}` returns
with the caller's graph rewritten to `{A: {A}}` — the sink-handling rewrite is
visible to the caller, so the claim that the graph is left unchanged is false. -/
theorem c1_sink_rewrite_visible :
    iterate_pagerank exSink (17 / 20) 1 = some ([(0, 1)], [(0, [0])]) ∧
      ([((0 : Page), [(0 : Page)])] : Graph) ≠ exSink := by
  constructor
  · norm_num [iterate_pagerank, iterateLoop, iterateRound, ranksConverged, calcPageRank,
      sinkRewrite, keys, setv, getv, round4, exSink, List.foldl, abs_le]
  · simp [exSink]

/-- C3 counterexample: on `{A: {B}, B: {C}, C: {B}}` with damping `0.85`,
the first round of the source's in-place update differs from the round that
reads only the previous assignment (`B` gets `0.3758`, not `0.6166`). -/
theorem c3_inplace_round_differs :
    iterateRound exSeq (17 / 20) (keys exSeq) (uniRanks exSeq) ≠
      simultaneousRound exSeq (17 / 20) (uniRanks exSeq) := by
  norm_num [iterateRound, simultaneousRound, calcPageRank, keys, setv, getv, round4,
    exSeq, uniRanks, List.foldl]

/-- C3 (amended): each round of `iterate_pagerank` rewrites the assignment
sequentially, one page at a time in key order — every page's new rank is
`calcPageRank` applied to the assignment in which the earlier pages of the
same round have already been overwritten. -/
theorem c3_round_is_sequential (corpus : Graph) (damping : ℚ)
    (pages : List Page) (ranks : Ranks) :
    iterateRound corpus damping pages ranks =
      pages.foldl (fun r p => setv r p (calcPageRank p corpus r damping)) ranks := by
  induction pages generalizing ranks with
  | nil => rfl
  | cons p rest ih => simp [iterateRound, List.foldl, ih]

/-- C4 counterexample: a damping factor of `2` (outside `(0,1)`) together with
a sample count of `0` (non-positive) does not make `sample_pagerank` fail — it
returns a result; likewise `iterate_pagerank` on the empty graph returns the
empty assignment instead of failing. -/
theorem c4_invalid_arguments_accepted :
    sample_pagerank exAB 2 0 0 zeroDraws = some [(0, 1 / 10000), (1, 0)] ∧
      iterate_pagerank ([] : Graph) (17 / 20) 1 = some ([], []) := by
  constructor
  · norm_num [sample_pagerank, sampleLoop, rincr, keys, exAB, SAMPLES, zeroDraws]
  · norm_num [iterate_pagerank, iterateLoop, iterateRound, ranksConverged, sinkRewrite, keys]

/-- C5 counterexample: on `{A: {B, C}, B: {}, C: {}}` with damping `0.00016`,
the transition distribution at `A` sums to `1.0001`, which is not within
`1e-6` of `1`. -/
theorem c5_transition_sum_off_by_round :
    transition_model exRound 0 (1 / 6250) =
        some [(0, 3333 / 10000), (1, 1667 / 5000), (2, 1667 / 5000)] ∧
      vsum [((0 : Page), (3333 : ℚ) / 10000), (1, 1667 / 5000), (2, 1667 / 5000)] =
        10001 / 10000 ∧
      ¬ |(10001 : ℚ) / 10000 - 1| ≤ 1 / 1000000 := by
  refine ⟨?_, by norm_num [vsum], ?_⟩
  · norm_num [transition_model, getl, dinsert, round4, exRound, List.foldl]
  · rw [abs_of_nonneg (by norm_num)]
    norm_num

/-- C6 counterexample: with damping `1/3` on `{A: {B}, B: {A}}`, the model
assigns `A` the rounded value `0.3333`, not the exact `(1-d)/(k+1) = 1/3` the
claim states. -/
theorem c6_transition_value_is_rounded :
    transition_model exAB 0 (1 / 3) = some [(0, 3333 / 10000), (1, 6667 / 10000)] ∧
      ((3333 : ℚ) / 10000) ≠ (1 - 1 / 3) / (1 + 1) := by
  constructor
  · norm_num [transition_model, getl, dinsert, round4, exAB, List.foldl]
  · norm_num


end PageRank

/-! ### Helper lemmas -/

namespace PageRank

theorem round4_nonneg {x : ℚ} (hx : 0 ≤ x) : 0 ≤ round4 x := by
  have h : (0 : ℤ) ≤ ⌊x * 10000 + 1 / 2⌋ := Int.floor_nonneg.mpr (by positivity)
  unfold round4
  have h2 : (0 : ℚ) ≤ (⌊x * 10000 + 1 / 2⌋ : ℚ) := by exact_mod_cast h
  positivity

theorem round4_err (x : ℚ) : |round4 x - x| ≤ 1 / 20000 := by
  have h1 : ((⌊x * 10000 + 1 / 2⌋ : ℤ) : ℚ) ≤ x * 10000 + 1 / 2 := Int.floor_le _
  have h2 : x * 10000 + 1 / 2 < ((⌊x * 10000 + 1 / 2⌋ : ℤ) : ℚ) + 1 := Int.lt_floor_add_one _
  rw [round4, abs_le]
  constructor <;> linarith

theorem getl_isSome_ne_nil {g : Graph} {p : Page} {links : List Page}
    (h : getl g p = some links) : g ≠ [] := by
  intro hg
  rw [hg] at h
  simp [getl] at h

theorem keys_sinkRewrite (g : Graph) : keys (sinkRewrite g) = keys g := by
  unfold keys sinkRewrite
  rw [List.map_map]
  refine List.map_congr_left ?_
  intro pr _
  simp only [Function.comp_apply]
  split <;> rfl

theorem length_sinkRewrite (g : Graph) : (sinkRewrite g).length = g.length := by
  simp [sinkRewrite]

theorem sinkRewrite_idem (g : Graph) : sinkRewrite (sinkRewrite g) = sinkRewrite g := by
  rcases eq_or_ne g [] with rfl | hg
  · rfl
  · have hkeys : (keys g).length ≠ 0 := by
      simpa [keys] using hg
    conv_lhs => rw [sinkRewrite]
    rw [keys_sinkRewrite, sinkRewrite, List.map_map]
    refine List.map_congr_left ?_
    intro pr _
    simp only [Function.comp_apply]
    by_cases h : pr.2.length = 0
    · simp [h, hkeys]
    · simp [h]

theorem map_keyconst_of_keys_eq {g1 g2 : Graph} (c : ℚ) (h : keys g1 = keys g2) :
    g1.map (fun pr => (pr.1, c)) = g2.map (fun pr => (pr.1, c)) := by
  have e : ∀ g : Graph, g.map (fun pr => (pr.1, c)) = (keys g).map (fun k => (k, c)) := by
    intro g
    unfold keys
    rw [List.map_map]
    rfl
  rw [e g1, e g2, h]

theorem sinkRewrite_ne_of_sink {g : Graph} {p : Page}
    (hp : (p, ([] : List Page)) ∈ g) : sinkRewrite g ≠ g := by
  intro he
  obtain ⟨i, hi, hg⟩ := List.getElem_of_mem hp
  have h3 : g[i]? = some ((p : Page), ([] : List Page)) := by
    rw [List.getElem?_eq_getElem hi, hg]
  have h2 : (sinkRewrite g)[i]? = some ((p : Page), keys g) := by
    rw [sinkRewrite, List.getElem?_map, h3]
    simp
  rw [he, h3] at h2
  have hkeys : keys g = [] := (Prod.mk.injEq .. ▸ Option.some.inj h2).2.symm
  have hnil : g = [] := List.map_eq_nil_iff.mp hkeys
  rw [hnil] at hp
  simp at hp

theorem keys_setv (m : Ranks) (p : Page) (v : ℚ) :
    (setv m p v).map Prod.fst = m.map Prod.fst := by
  induction m with
  | nil => rfl
  | cons pr rest ih =>
    obtain ⟨q, w⟩ := pr
    by_cases h : q = p
    · subst h
      simp [setv]
    · simp [setv, h, ih]

theorem setv_forall_nonneg {m : Ranks} {p : Page} {v : ℚ}
    (hm : ∀ pr ∈ m, 0 ≤ pr.2) (hv : 0 ≤ v) : ∀ pr ∈ setv m p v, 0 ≤ pr.2 := by
  induction m with
  | nil => simp [setv]
  | cons hd rest ih =>
    obtain ⟨q, w⟩ := hd
    by_cases h : q = p
    · subst h
      simp only [setv, if_pos rfl]
      intro pr hpr
      rcases List.mem_cons.mp hpr with rfl | hpr
      · exact hv
      · exact hm pr (List.mem_cons_of_mem _ hpr)
    · simp only [setv, if_neg h]
      intro pr hpr
      rcases List.mem_cons.mp hpr with rfl | hpr
      · exact hm (q, w) (List.mem_cons_self _ _)
      · exact ih (fun x hx => hm x (List.mem_cons_of_mem _ hx)) pr hpr

theorem getv_nonneg {m : Ranks} (hm : ∀ pr ∈ m, 0 ≤ pr.2) (p : Page) :
    0 ≤ getv m p := by
  induction m with
  | nil => simp [getv]
  | cons hd rest ih =>
    obtain ⟨q, w⟩ := hd
    by_cases h : q = p
    · simpa [getv, h] using hm (q, w) (List.mem_cons_self _ _)
    · simp only [getv, if_neg h]
      exact ih fun x hx => hm x (List.mem_cons_of_mem _ hx)

theorem calcPageRank_nonneg {corpus : Graph} {ranks : Ranks} {d : ℚ} (p : Page)
    (hd0 : 0 ≤ d) (hd1 : d ≤ 1) (hr : ∀ pr ∈ ranks, 0 ≤ pr.2) :
    0 ≤ calcPageRank p corpus ranks d := by
  unfold calcPageRank
  have hsum : ∀ (l : Graph) (s : ℚ), 0 ≤ s →
      0 ≤ l.foldl (fun s pr =>
        if p ∈ pr.2 then s + round4 (getv ranks pr.1 / (pr.2.length : ℚ)) else s) s := by
    intro l
    induction l with
    | nil => intro s hs; simpa using hs
    | cons hd rest ih =>
      intro s hs
      simp only [List.foldl_cons]
      by_cases h : p ∈ hd.2
      · rw [if_pos h]
        exact ih _ (add_nonneg hs
          (round4_nonneg (div_nonneg (getv_nonneg hr _) (Nat.cast_nonneg _))))
      · rw [if_neg h]
        exact ih _ hs
  have h1 : 0 ≤ round4 ((1 - d) / (corpus.length : ℚ)) :=
    round4_nonneg (div_nonneg (by linarith) (Nat.cast_nonneg _))
  have h2 : 0 ≤ round4 (d * corpus.foldl (fun s pr =>
      if p ∈ pr.2 then s + round4 (getv ranks pr.1 / (pr.2.length : ℚ)) else s) 0) :=
    round4_nonneg (mul_nonneg hd0 (hsum corpus 0 le_rfl))
  exact add_nonneg h1 h2

theorem keys_iterateRound (corpus : Graph) (d : ℚ) (pages : List Page) (ranks : Ranks) :
    (iterateRound corpus d pages ranks).map Prod.fst = ranks.map Prod.fst := by
  induction pages generalizing ranks with
  | nil => rfl
  | cons p rest ih => rw [iterateRound, ih, keys_setv]

theorem iterateRound_forall_nonneg {corpus : Graph} {d : ℚ} (pages : List Page)
    {ranks : Ranks} (hd0 : 0 ≤ d) (hd1 : d ≤ 1) (hr : ∀ pr ∈ ranks, 0 ≤ pr.2) :
    ∀ pr ∈ iterateRound corpus d pages ranks, 0 ≤ pr.2 := by
  induction pages generalizing ranks with
  | nil => simpa [iterateRound] using hr
  | cons p rest ih =>
    rw [iterateRound]
    exact ih (setv_forall_nonneg hr (calcPageRank_nonneg p hd0 hd1 hr))

theorem iterateLoop_keys_nonneg {corpus : Graph} {d : ℚ} (fuel : Nat) {ranks r : Ranks}
    (hd0 : 0 ≤ d) (hd1 : d ≤ 1) (hr : ∀ pr ∈ ranks, 0 ≤ pr.2)
    (h : iterateLoop corpus d fuel ranks = some r) :
    r.map Prod.fst = ranks.map Prod.fst ∧ ∀ pr ∈ r, 0 ≤ pr.2 := by
  induction fuel generalizing ranks with
  | zero => simp [iterateLoop] at h
  | succ fuel ih =>
    rw [iterateLoop] at h
    by_cases hc : ranksConverged ranks (iterateRound corpus d (ranks.map Prod.fst) ranks)
    · rw [if_pos hc] at h
      obtain rfl : iterateRound corpus d (ranks.map Prod.fst) ranks = r :=
        Option.some.inj h
      exact ⟨keys_iterateRound _ _ _ _, iterateRound_forall_nonneg _ hd0 hd1 hr⟩
    · rw [if_neg hc] at h
      have hnext := ih (iterateRound_forall_nonneg _ hd0 hd1 hr) h
      exact ⟨hnext.1.trans (keys_iterateRound _ _ _ _), hnext.2⟩

end PageRank

namespace PageRank

theorem dinsert_of_fresh (m : Dist) (k : Page) (v : ℚ)
    (h : ∀ pr ∈ m, pr.1 ≠ k) : dinsert m k v = m ++ [(k, v)] := by
  induction m with
  | nil => rfl
  | cons hd rest ih =>
    have hne : hd.1 ≠ k := h hd (List.mem_cons_self _ _)
    obtain ⟨q, w⟩ := hd
    rw [dinsert, if_neg hne]
    rw [ih fun x hx => h x (List.mem_cons_of_mem _ hx)]
    rfl

theorem foldl_dinsert_fresh (links : List Page) (c : ℚ) :
    ∀ acc : Dist, links.Nodup → (∀ q ∈ links, ∀ pr ∈ acc, pr.1 ≠ q) →
      links.foldl (fun m q => dinsert m q c) acc = acc ++ links.map (fun q => (q, c)) := by
  induction links with
  | nil => intro acc _ _; simp
  | cons a rest ih =>
    intro acc hnd hfr
    rw [List.foldl_cons,
      dinsert_of_fresh acc a c (hfr a (List.mem_cons_self _ _))]
    rw [ih (acc ++ [(a, c)]) (List.nodup_cons.mp hnd).2 ?_]
    · simp
    · intro q hq pr hpr
      rcases List.mem_append.mp hpr with hpr | hpr
      · exact hfr q (List.mem_cons_of_mem _ hq) pr hpr
      · have hpa : pr = (a, c) := by simpa using hpr
        rw [hpa]
        show a ≠ q
        intro hcon
        subst hcon
        exact (List.nodup_cons.mp hnd).1 hq

theorem vsum_append (a b : Dist) : vsum (a ++ b) = vsum a + vsum b := by
  simp [vsum]

theorem vsum_map_pair {α : Type} (l : List α) (f : α → Page) (c : ℚ) :
    vsum (l.map fun a => (f a, c)) = l.length * c := by
  induction l with
  | nil => simp [vsum]
  | cons hd rest ih =>
    simp only [List.map_cons, vsum, List.map, List.sum_cons] at ih ⊢
    rw [ih]
    simp only [List.length_cons]
    push_cast
    ring

theorem getv_cons_self (p : Page) (a : ℚ) (rest : Dist) :
    getv ((p, a) :: rest) p = a := by
  simp [getv]

theorem getv_cons_ne {p q : Page} (a : ℚ) (rest : Dist) (h : p ≠ q) :
    getv ((p, a) :: rest) q = getv rest q := by
  simp [getv, h]

theorem getv_map_pair {α : Type} (l : List α) (f : α → Page) (c : ℚ) {q : Page}
    (h : q ∈ l.map f) : getv (l.map fun a => (f a, c)) q = c := by
  induction l with
  | nil => simp at h
  | cons hd rest ih =>
    by_cases he : f hd = q
    · simp [getv, he]
    · rw [List.map_cons, getv_cons_ne _ _ he]
      refine ih ?_
      rcases List.mem_map.mp h with ⟨a, ha, hfa⟩
      rcases List.mem_cons.mp ha with rfl | ha
      · exact absurd hfa he
      · exact List.mem_map.mpr ⟨a, ha, hfa⟩

theorem mem_keys_dinsert (m : Dist) (k : Page) (v : ℚ) (q : Page) :
    q ∈ (dinsert m k v).map Prod.fst ↔ q ∈ m.map Prod.fst ∨ q = k := by
  induction m with
  | nil => simp [dinsert]
  | cons hd rest ih =>
    obtain ⟨a, w⟩ := hd
    by_cases h : a = k
    · subst h
      simp only [dinsert, if_pos rfl, List.map_cons]
      constructor
      · intro hq
        rcases List.mem_cons.mp hq with rfl | hq
        · exact Or.inr rfl
        · exact Or.inl (List.mem_cons_of_mem _ hq)
      · intro hq
        rcases hq with hq | rfl
        · rcases List.mem_cons.mp hq with rfl | hq
          · exact List.mem_cons_self _ _
          · exact List.mem_cons_of_mem _ hq
        · exact List.mem_cons_self _ _
    · simp only [dinsert, if_neg h, List.map_cons, List.mem_cons, ih]
      tauto

theorem mem_keys_foldl_dinsert (links : List Page) (c : ℚ) (q : Page) :
    ∀ acc : Dist, q ∈ ((links.foldl (fun m x => dinsert m x c) acc).map Prod.fst) ↔
      q ∈ acc.map Prod.fst ∨ q ∈ links := by
  induction links with
  | nil => intro acc; simp
  | cons a rest ih =>
    intro acc
    rw [List.foldl_cons, ih, mem_keys_dinsert]
    simp only [List.mem_cons]
    tauto

end PageRank

namespace PageRank

/-- In the branch with at least one outbound link, the transition model is the
entry for `page` followed by one entry per linked page, in order. -/
theorem transition_model_eq_of_links (g : Graph) (p : Page) (d : ℚ)
    (links : List Page) (h : getl g p = some links) (hp : p ∉ links)
    (hnd : links.Nodup) (hnil : links.length ≠ 0) :
    transition_model g p d =
      some ((p, round4 ((1 - d) / ((links.length : ℚ) + 1))) ::
        links.map fun q =>
          (q, round4 ((1 - d) / ((links.length : ℚ) + 1) +
            d * (1 / (links.length : ℚ))))) := by
  simp only [transition_model, h]
  rw [if_neg hnil]
  congr 1
  rw [foldl_dinsert_fresh links _ _ hnd ?_]
  · rfl
  · intro q hq pr hpr
    have hpa : pr = (p, round4 ((1 - d) / ((links.length : ℚ) + 1))) := by
      simpa using hpr
    rw [hpa]
    show p ≠ q
    intro he
    exact hp (he ▸ hq)

/-- C1 (amended): the sink-handling rewrite of `iterate_pagerank` is performed
in place on the caller's graph: whenever the call returns, the caller's graph
equals the sink-rewritten graph, and whenever the input contained a sink page
the caller's graph has changed. -/
theorem c1_sink_rewrite_in_place (corpus : Graph) (d : ℚ) (fuel : Nat)
    (r : Ranks) (g2 : Graph) (p : Page)
    (h : iterate_pagerank corpus d fuel = some (r, g2))
    (hp : (p, ([] : List Page)) ∈ corpus) :
    g2 = sinkRewrite corpus ∧ g2 ≠ corpus := by
  have hg2 : g2 = sinkRewrite corpus := by
    simp only [iterate_pagerank] at h
    rcases Option.map_eq_some'.mp h with ⟨r0, _, heq⟩
    have := congrArg Prod.snd heq
    simpa using this.symm
  exact ⟨hg2, hg2 ▸ sinkRewrite_ne_of_sink hp⟩

/-- C1 witness: instantiation of `c1_sink_rewrite_in_place` on the one-page
sink graph `{A: {}}` with damping `0.85`. -/
theorem c1_sink_rewrite_in_place_witness :
    ([((0 : Page), [(0 : Page)])] : Graph) = sinkRewrite exSink ∧
      ([((0 : Page), [(0 : Page)])] : Graph) ≠ exSink :=
  c1_sink_rewrite_in_place exSink (17 / 20) 1 [(0, 1)] [(0, [0])] 0
    (by norm_num [iterate_pagerank, iterateLoop, iterateRound, ranksConverged, calcPageRank,
      sinkRewrite, keys, setv, getv, round4, exSink, List.foldl, abs_le])
    (by simp [exSink])

/-- C4 (amended): only two of the invalid-argument conditions make an
operation fail: `sample_pagerank` on an empty graph (the `randrange(0)`
failure) and a transition request for a page absent from the graph (the
`KeyError`).  `iterate_pagerank` on an empty graph returns an empty
assignment instead of failing, and neither a damping factor outside `(0,1)`
nor a non-positive sample count is validated: those calls return results. -/
theorem c4_partial_failure_semantics (g : Graph) (p : Page) (dq d2 : ℚ)
    (n : Int) (i : Nat) (draws : Nat → StepDraws) (fuel : Nat)
    (hp : getl g p = none) :
    sample_pagerank [] dq n i draws = none ∧
      transition_model g p dq = none ∧
      iterate_pagerank [] d2 (fuel + 1) = some ([], []) ∧
      sample_pagerank exAB 2 0 0 zeroDraws = some [(0, 1 / 10000), (1, 0)] ∧
      iterate_pagerank exAB 3 1 = some ([(0, 1 / 2), (1, 1 / 2)], exAB) := by
  refine ⟨rfl, ?_, ?_, ?_, ?_⟩
  · simp [transition_model, hp]
  · simp [iterate_pagerank, iterateLoop, iterateRound, ranksConverged, sinkRewrite, keys]
  · norm_num [sample_pagerank, sampleLoop, rincr, keys, exAB, SAMPLES, zeroDraws]
  · norm_num [iterate_pagerank, iterateLoop, iterateRound, ranksConverged, calcPageRank,
      sinkRewrite, keys, setv, getv, round4, exAB, List.foldl, abs_le]

/-- C4 witness: instantiation of `c4_partial_failure_semantics` at the
two-page graph, an absent page `7`, damping `0.85`, and sample count `5`. -/
theorem c4_partial_failure_semantics_witness :
    sample_pagerank [] (17 / 20) 5 0 zeroDraws = none ∧
      transition_model exAB 7 (17 / 20) = none ∧
      iterate_pagerank [] (17 / 20) (0 + 1) = some ([], []) ∧
      sample_pagerank exAB 2 0 0 zeroDraws = some [(0, 1 / 10000), (1, 0)] ∧
      iterate_pagerank exAB 3 1 = some ([(0, 1 / 2), (1, 1 / 2)], exAB) :=
  c4_partial_failure_semantics exAB 7 (17 / 20) (17 / 20) 5 0 zeroDraws 0
    (by simp [getl, exAB])

/-- C7 (amended): whenever `iterate_pagerank` returns (damping in `[0,1]`),
the output assigns exactly one value to every page of the graph, in key
order, and every value is nonnegative.  (The values need not sum to `1`
within `1e-3`; see the counterexample.) -/
theorem c7_iterate_output_keys_nonneg (corpus : Graph) (d : ℚ) (fuel : Nat)
    (r : Ranks) (g2 : Graph) (hd0 : 0 ≤ d) (hd1 : d ≤ 1)
    (h : iterate_pagerank corpus d fuel = some (r, g2)) :
    r.map Prod.fst = keys corpus ∧ ∀ pr ∈ r, 0 ≤ pr.2 := by
  simp only [iterate_pagerank] at h
  rcases Option.map_eq_some'.mp h with ⟨r0, hloop, heq⟩
  have hr0 : r0 = r := by
    have := congrArg Prod.fst heq
    simpa using this
  subst hr0
  have hinit : ∀ pr ∈ corpus.map (fun pr => (pr.1, 1 / (corpus.length : ℚ))),
      0 ≤ pr.2 := by
    intro pr hpr
    rcases List.mem_map.mp hpr with ⟨x, _, rfl⟩
    exact div_nonneg zero_le_one (Nat.cast_nonneg _)
  have hkn := iterateLoop_keys_nonneg fuel hd0 hd1 hinit hloop
  refine ⟨?_, hkn.2⟩
  rw [hkn.1, List.map_map]
  rfl

/-- C7 witness: instantiation of `c7_iterate_output_keys_nonneg` on the
two-page cycle with damping `0.85`. -/
theorem c7_iterate_output_keys_nonneg_witness :
    ([((0 : Page), (1 : ℚ) / 2), (1, 1 / 2)] : Ranks).map Prod.fst = keys exAB ∧
      ∀ pr ∈ ([((0 : Page), (1 : ℚ) / 2), (1, 1 / 2)] : Ranks), 0 ≤ pr.2 :=
  c7_iterate_output_keys_nonneg exAB (17 / 20) 1 [(0, 1 / 2), (1, 1 / 2)] exAB
    (by norm_num) (by norm_num)
    (by norm_num [iterate_pagerank, iterateLoop, iterateRound, ranksConverged, calcPageRank,
      sinkRewrite, keys, setv, getv, round4, exAB, List.foldl, abs_le])

/-- C8: calling `iterate_pagerank` a second time, on the graph as the first
call left it (sink rewrite included) with the same damping factor, returns
the same rank assignment and leaves the graph unchanged — the estimator is
deterministic and its second run reproduces the first. -/
theorem c8_iterate_second_call_same (corpus : Graph) (d : ℚ) (fuel : Nat)
    (r : Ranks) (g2 : Graph)
    (h : iterate_pagerank corpus d fuel = some (r, g2)) :
    iterate_pagerank g2 d fuel = some (r, g2) := by
  simp only [iterate_pagerank] at h ⊢
  rcases Option.map_eq_some'.mp h with ⟨r0, hloop, heq⟩
  have hr0 : r0 = r := by
    have := congrArg Prod.fst heq
    simpa using this
  have hg2 : g2 = sinkRewrite corpus := by
    have := congrArg Prod.snd heq
    simpa using this.symm
  subst hr0
  subst hg2
  rw [sinkRewrite_idem, length_sinkRewrite,
    map_keyconst_of_keys_eq _ (keys_sinkRewrite corpus), hloop]
  rfl

/-- C8 witness: instantiation of `c8_iterate_second_call_same` after a first
call on the sink graph `{A: {}}` with damping `0.85`. -/
theorem c8_iterate_second_call_same_witness :
    iterate_pagerank [((0 : Page), [(0 : Page)])] (17 / 20) 1 =
      some ([(0, 1)], [(0, [0])]) :=
  c8_iterate_second_call_same exSink (17 / 20) 1 [(0, 1)] [(0, [0])]
    (by norm_num [iterate_pagerank, iterateLoop, iterateRound, ranksConverged, calcPageRank,
      sinkRewrite, keys, setv, getv, round4, exSink, List.foldl, abs_le])

end PageRank

namespace PageRank

/-- C5 (amended): for a valid page entry (no self link, duplicate-free
outbound list), the transition distribution sums to `1` up to the 4-decimal
rounding of its `k + 1` entries: the total is within `(k+1)/20000` of `1`,
where `k` is the number of outbound links (`k = 0` gives the exact sum `1`). -/
theorem c5_transition_sum_within_rounding (g : Graph) (p : Page) (d : ℚ)
    (links : List Page) (h : getl g p = some links) (hp : p ∉ links)
    (hnd : links.Nodup) :
    ∃ m, transition_model g p d = some m ∧
      |vsum m - 1| ≤ ((links.length : ℚ) + 1) / 20000 := by
  by_cases hnil : links.length = 0
  · refine ⟨g.map fun pr => (pr.1, 1 / (g.length : ℚ)),
      by simp [transition_model, h, hnil], ?_⟩
    have hgne : g ≠ [] := getl_isSome_ne_nil h
    have hlen : (g.length : ℚ) ≠ 0 := by
      exact_mod_cast fun hc => hgne (List.length_eq_zero.mp hc)
    have hv : vsum (g.map fun pr => (pr.1, 1 / (g.length : ℚ))) = 1 := by
      rw [vsum_map_pair g Prod.fst (1 / (g.length : ℚ))]
      field_simp
    rw [hv]
    simp only [sub_self, abs_zero]
    positivity
  · set k : ℚ := (links.length : ℚ) with hk
    have hk1 : (1 : ℚ) ≤ k := by
      rw [hk]
      exact_mod_cast Nat.one_le_iff_ne_zero.mpr hnil
    have hk0 : (0 : ℚ) < k := lt_of_lt_of_le one_pos hk1
    set A : ℚ := (1 - d) / (k + 1) with hA
    set B : ℚ := (1 - d) / (k + 1) + d * (1 / k) with hB
    refine ⟨_, transition_model_eq_of_links g p d links h hp hnd hnil, ?_⟩
    have hv : vsum ((p, round4 A) :: links.map fun q => (q, round4 B)) =
        round4 A + k * round4 B := by
      rw [show ((p, round4 A) :: links.map fun q => (q, round4 B)) =
        [(p, round4 A)] ++ links.map fun q => (q, round4 B) from rfl, vsum_append]
      rw [vsum_map_pair links (fun q => q) (round4 B)]
      simp [vsum, hk]
    rw [hv]
    have hkne : k ≠ 0 := ne_of_gt hk0
    have hk1ne : k + 1 ≠ 0 := by positivity
    have hsum1 : A + k * B = 1 := by
      rw [hA, hB]
      field_simp
      ring
    have e1 := round4_err A
    have e2 := round4_err B
    have hrw : round4 A + k * round4 B - 1 = (round4 A - A) + k * (round4 B - B) := by
      rw [← hsum1]
      ring
    rw [hrw]
    have habs : |(round4 A - A) + k * (round4 B - B)| ≤
        |round4 A - A| + k * |round4 B - B| := by
      refine (abs_add _ _).trans ?_
      rw [abs_mul, abs_of_pos hk0]
    nlinarith [habs, e1, e2, hk0, abs_nonneg (round4 B - B)]

/-- C5 witness: instantiation of `c5_transition_sum_within_rounding` at the
graph `{A: {B, C}, B: {}, C: {}}`, page `A`, damping `0.85`. -/
theorem c5_transition_sum_within_rounding_witness :
    ∃ m, transition_model exRound 0 (17 / 20) = some m ∧
      |vsum m - 1| ≤ ((([(1 : Page), 2] : List Page).length : ℚ) + 1) / 20000 :=
  c5_transition_sum_within_rounding exRound 0 (17 / 20) [1, 2] rfl
    (by decide) (by decide)

/-- C6 (amended): for a valid page entry, the transition distribution is
exactly the claimed one up to the source's 4-decimal rounding: a page with no
outbound links gives every page of the graph the exact value `1/|pages|`,
and a page with `k ≥ 1` outbound links gets `round4((1-d)/(k+1))` itself
while each linked page gets `round4((1-d)/(k+1) + d/k)`. -/
theorem c6_transition_values_rounded (g : Graph) (p : Page) (d : ℚ)
    (links : List Page) (h : getl g p = some links) (hp : p ∉ links)
    (hnd : links.Nodup) :
    ∃ m, transition_model g p d = some m ∧
      (links.length = 0 → ∀ q ∈ keys g, getv m q = 1 / (g.length : ℚ)) ∧
      (links.length ≠ 0 →
        getv m p = round4 ((1 - d) / ((links.length : ℚ) + 1)) ∧
        ∀ q ∈ links, getv m q =
          round4 ((1 - d) / ((links.length : ℚ) + 1) +
            d * (1 / (links.length : ℚ)))) := by
  by_cases hnil : links.length = 0
  · refine ⟨g.map fun pr => (pr.1, 1 / (g.length : ℚ)),
      by simp [transition_model, h, hnil], ?_, fun hc => absurd hnil hc⟩
    intro _ q hq
    exact getv_map_pair g Prod.fst _ (by simpa [keys] using hq)
  · refine ⟨_, transition_model_eq_of_links g p d links h hp hnd hnil, ?_, ?_⟩
    · intro hc
      exact absurd hc hnil
    · intro _
      refine ⟨getv_cons_self _ _ _, ?_⟩
      intro q hq
      have hne : p ≠ q := fun he => hp (he ▸ hq)
      rw [getv_cons_ne _ _ hne]
      exact getv_map_pair links (fun x => x) _ (by simpa using hq)

/-- C6 witness: instantiation of `c6_transition_values_rounded` at the graph
`{A: {B, C}, B: {}, C: {}}`, page `A`, damping `0.85`. -/
theorem c6_transition_values_rounded_witness :
    ∃ m, transition_model exRound 0 (17 / 20) = some m ∧
      (([(1 : Page), 2] : List Page).length = 0 →
        ∀ q ∈ keys exRound, getv m q = 1 / (exRound.length : ℚ)) ∧
      (([(1 : Page), 2] : List Page).length ≠ 0 →
        getv m 0 = round4 ((1 - 17 / 20) / ((([(1 : Page), 2] : List Page).length : ℚ) + 1)) ∧
        ∀ q ∈ ([(1 : Page), 2] : List Page), getv m q =
          round4 ((1 - 17 / 20) / ((([(1 : Page), 2] : List Page).length : ℚ) + 1) +
            (17 / 20) * (1 / (([(1 : Page), 2] : List Page).length : ℚ)))) :=
  c6_transition_values_rounded exRound 0 (17 / 20) [1, 2] rfl (by decide) (by decide)

/-- C10: for a page with at least one outbound link, the keys of the
transition distribution are exactly the page itself together with its
outbound links — pages not linked from it are absent, not present with
probability `0`. -/
theorem c10_transition_support_keys (g : Graph) (p : Page) (d : ℚ)
    (links : List Page) (h : getl g p = some links) (hnil : links ≠ []) :
    ∃ m, transition_model g p d = some m ∧
      ∀ q, q ∈ m.map Prod.fst ↔ q = p ∨ q ∈ links := by
  have hlen : links.length ≠ 0 := by
    simpa [List.length_eq_zero] using hnil
  refine ⟨links.foldl
      (fun m nextPage => dinsert m nextPage
        (round4 ((1 - d) / ((links.length : ℚ) + 1) + d * (1 / (links.length : ℚ)))))
      [(p, round4 ((1 - d) / ((links.length : ℚ) + 1)))], ?_, ?_⟩
  · simp only [transition_model, h]
    rw [if_neg hlen]
  · intro q
    rw [mem_keys_foldl_dinsert]
    simp [or_comm]

/-- C10 witness: instantiation of `c10_transition_support_keys` at the
two-page cycle, page `A`, damping `0.85`. -/
theorem c10_transition_support_keys_witness :
    ∃ m, transition_model exAB 0 (17 / 20) = some m ∧
      ∀ q, q ∈ m.map Prod.fst ↔ q = 0 ∨ q ∈ ([(1 : Page)] : List Page) :=
  c10_transition_support_keys exAB 0 (17 / 20) [1] rfl (by simp)

end PageRank

namespace PageRank

theorem length_starOut (k : Nat) : (starOut k).length = k := List.length_range' ..

theorem nodup_starOut (k : Nat) : (starOut k).Nodup := List.nodup_range' ..

theorem mem_starOut {j k : Nat} : j ∈ starOut k ↔ 1 ≤ j ∧ j < 1 + k := by
  rw [starOut, List.mem_range']
  constructor
  · rintro ⟨i, hi, rfl⟩
    omega
  · rintro ⟨h1, h2⟩
    exact ⟨j - 1, by omega, by omega⟩

theorem zero_notMem_starOut (k : Nat) : (0 : Page) ∉ starOut k := by
  intro h
  have := (mem_starOut.mp h).1
  omega

theorem length_starGraph (k : Nat) : (starGraph k).length = k + 1 := by
  simp [starGraph, length_starOut]

theorem starGraph_map_keyconst (k : Nat) (c : ℚ) :
    (starGraph k).map (fun pr => (pr.1, c)) =
      (0, c) :: (starOut k).map (fun i => (i, c)) := by
  rw [starGraph, List.map_cons, List.map_map]
  rfl

theorem star_init (k : Nat) :
    (starGraph k).map (fun pr => (pr.1, 1 / ((starGraph k).length : ℚ))) =
      (0, 1 / ((k : ℚ) + 1)) ::
        (starOut k).map (fun i => (i, 1 / ((k : ℚ) + 1))) := by
  have hc : (((starGraph k).length : Nat) : ℚ) = (k : ℚ) + 1 := by
    rw [length_starGraph]
    push_cast
    ring
  rw [hc, starGraph_map_keyconst]

theorem star_keys (k : Nat) (a b : ℚ) :
    (((0, a) :: (starOut k).map (fun i => (i, b))) : Ranks).map Prod.fst =
      0 :: starOut k := by
  rw [List.map_cons, List.map_map]
  rw [show (Prod.fst ∘ fun i : Page => (i, b)) = fun i : Page => i from rfl,
    List.map_id']

theorem getv_star_spoke {k : Nat} (a b : ℚ) {i : Page} (hi : i ∈ starOut k) :
    getv ((0, a) :: (starOut k).map (fun x => (x, b))) i = b := by
  have hne : (0 : Page) ≠ i := fun he => zero_notMem_starOut k (he ▸ hi)
  rw [getv_cons_ne _ _ hne]
  exact getv_map_pair (starOut k) (fun x => x) b (by simpa using hi)

theorem sinkRewrite_eq_self {g : Graph} (h : ∀ pr ∈ g, pr.2.length ≠ 0) :
    sinkRewrite g = g := by
  rw [sinkRewrite]
  have he : ∀ pr ∈ g, (if pr.2.length = 0 then (pr.1, keys g) else pr) = pr :=
    fun pr hpr => if_neg (h pr hpr)
  rw [List.map_congr_left he, List.map_id']

theorem starGraph_no_sinks (k : Nat) (hk : k ≠ 0) :
    ∀ pr ∈ starGraph k, pr.2.length ≠ 0 := by
  intro pr hpr
  rcases List.mem_cons.mp hpr with rfl | hpr
  · simpa [length_starOut] using hk
  · rcases List.mem_map.mp hpr with ⟨i, _, rfl⟩
    simp

end PageRank

namespace PageRank

theorem foldl_star_into_hub (ranks : Ranks) (b : ℚ) (l : List Page)
    (hl : ∀ i ∈ l, getv ranks i = b) : ∀ s : ℚ,
    (l.map (fun i => (i, ([0] : List Page)))).foldl
      (fun s pr => if (0 : Page) ∈ pr.2 then
        s + round4 (getv ranks pr.1 / (pr.2.length : ℚ)) else s) s
    = s + l.length * round4 b := by
  induction l with
  | nil =>
    intro s
    simp
  | cons i t ih =>
    intro s
    rw [List.map_cons, List.foldl_cons, if_pos (by simp : (0 : Page) ∈ ([0] : List Page))]
    have hi : getv ranks i = b := hl i (List.mem_cons_self _ _)
    have hlen : ((([0] : List Page)).length : ℚ) = 1 := by norm_num
    rw [hi, hlen, div_one, ih (fun x hx => hl x (List.mem_cons_of_mem _ hx))]
    simp only [List.length_cons]
    push_cast
    ring

theorem foldl_star_spokes_skip (ranks : Ranks) (j : Page) (hj : j ≠ 0)
    (l : List Page) : ∀ s : ℚ,
    (l.map (fun i => (i, ([0] : List Page)))).foldl
      (fun s pr => if j ∈ pr.2 then
        s + round4 (getv ranks pr.1 / (pr.2.length : ℚ)) else s) s = s := by
  induction l with
  | nil =>
    intro s
    simp
  | cons i t ih =>
    intro s
    rw [List.map_cons, List.foldl_cons, if_neg (by simpa using hj), ih]

theorem calc_star_hub (k : Nat) (d b : ℚ) (ranks : Ranks)
    (hl : ∀ i ∈ starOut k, getv ranks i = b) :
    calcPageRank 0 (starGraph k) ranks d =
      round4 ((1 - d) / ((k : ℚ) + 1)) + round4 (d * ((k : ℚ) * round4 b)) := by
  unfold calcPageRank
  have hlen : (((starGraph k).length : Nat) : ℚ) = (k : ℚ) + 1 := by
    rw [length_starGraph]
    push_cast
    ring
  rw [hlen, starGraph, List.foldl_cons, if_neg (zero_notMem_starOut k),
    foldl_star_into_hub ranks b (starOut k) hl 0, length_starOut, zero_add]

theorem calc_star_spoke (k : Nat) (d : ℚ) (ranks : Ranks) {j : Page}
    (hj : j ∈ starOut k) :
    calcPageRank j (starGraph k) ranks d =
      round4 ((1 - d) / ((k : ℚ) + 1)) +
        round4 (d * round4 (getv ranks 0 / (k : ℚ))) := by
  have hj0 : j ≠ 0 := fun he => zero_notMem_starOut k (he ▸ hj)
  unfold calcPageRank
  have hlen : (((starGraph k).length : Nat) : ℚ) = (k : ℚ) + 1 := by
    rw [length_starGraph]
    push_cast
    ring
  rw [hlen, starGraph, List.foldl_cons, if_pos hj,
    foldl_star_spokes_skip ranks j hj0 (starOut k), length_starOut, zero_add]

theorem setv_append_left_skip (l1 l2 : Ranks) (p : Page) (v : ℚ)
    (h : ∀ pr ∈ l1, pr.1 ≠ p) : setv (l1 ++ l2) p v = l1 ++ setv l2 p v := by
  induction l1 with
  | nil => rfl
  | cons hd t ih =>
    obtain ⟨q, w⟩ := hd
    have hq : q ≠ p := h (q, w) (List.mem_cons_self _ _)
    rw [List.cons_append, setv, if_neg hq,
      ih (fun x hx => h x (List.mem_cons_of_mem _ hx)), List.cons_append]

theorem iterateRound_star_spokes (k : Nat) (d A2 b : ℚ) :
    ∀ (rest done : List Page), (∀ j ∈ rest, j ∈ starOut k) → rest.Nodup →
      (∀ j ∈ rest, j ∉ done) →
      iterateRound (starGraph k) d rest
        ((0, A2) :: (done.map (fun i => (i, round4 ((1 - d) / ((k : ℚ) + 1)) +
            round4 (d * round4 (A2 / (k : ℚ))))) ++ rest.map (fun i => (i, b))))
      = (0, A2) :: ((done ++ rest).map (fun i => (i,
          round4 ((1 - d) / ((k : ℚ) + 1)) +
            round4 (d * round4 (A2 / (k : ℚ)))))) := by
  intro rest
  induction rest with
  | nil =>
    intro done _ _ _
    simp [iterateRound]
  | cons j t ih =>
    intro done hmem hnd hnotin
    have hj : j ∈ starOut k := hmem j (List.mem_cons_self _ _)
    have hj0 : j ≠ 0 := fun he => zero_notMem_starOut k (he ▸ hj)
    rw [iterateRound]
    rw [calc_star_spoke k d _ hj, getv_cons_self]
    have hsetv : setv ((0, A2) :: (done.map (fun i => (i,
          round4 ((1 - d) / ((k : ℚ) + 1)) + round4 (d * round4 (A2 / (k : ℚ))))) ++
            (j :: t).map (fun i => (i, b)))) j
          (round4 ((1 - d) / ((k : ℚ) + 1)) + round4 (d * round4 (A2 / (k : ℚ))))
        = (0, A2) :: ((done ++ [j]).map (fun i => (i,
            round4 ((1 - d) / ((k : ℚ) + 1)) + round4 (d * round4 (A2 / (k : ℚ))))) ++
              t.map (fun i => (i, b))) := by
      rw [setv, if_neg (Ne.symm hj0)]
      rw [setv_append_left_skip _ _ _ _ ?_]
      · rw [List.map_cons, setv, if_pos rfl]
        simp [List.append_assoc]
      · intro pr hpr
        rcases List.mem_map.mp hpr with ⟨i, hi, rfl⟩
        intro he
        exact hnotin j (List.mem_cons_self _ _) (he ▸ hi)
    rw [hsetv]
    rw [ih (done ++ [j]) (fun x hx => hmem x (List.mem_cons_of_mem _ hx))
      (List.nodup_cons.mp hnd).2 ?_]
    · rw [List.append_assoc, List.singleton_append]
    · intro x hx hcon
      rcases List.mem_append.mp hcon with hcon | hcon
      · exact hnotin x (List.mem_cons_of_mem _ hx) hcon
      · have : x = j := by simpa using hcon
        exact (List.nodup_cons.mp hnd).1 (this ▸ hx)

theorem iterateRound_star (k : Nat) (d a b : ℚ) :
    iterateRound (starGraph k) d (0 :: starOut k)
        ((0, a) :: (starOut k).map (fun i => (i, b)))
      = (0, round4 ((1 - d) / ((k : ℚ) + 1)) + round4 (d * ((k : ℚ) * round4 b))) ::
          (starOut k).map (fun i => (i,
            round4 ((1 - d) / ((k : ℚ) + 1)) +
              round4 (d * round4 ((round4 ((1 - d) / ((k : ℚ) + 1)) +
                round4 (d * ((k : ℚ) * round4 b))) / (k : ℚ))))) := by
  rw [iterateRound]
  rw [calc_star_hub k d b _ (fun i hi => getv_star_spoke a b hi)]
  rw [show setv ((0, a) :: (starOut k).map (fun i => (i, b))) 0
      (round4 ((1 - d) / ((k : ℚ) + 1)) + round4 (d * ((k : ℚ) * round4 b)))
    = (0, round4 ((1 - d) / ((k : ℚ) + 1)) + round4 (d * ((k : ℚ) * round4 b))) ::
        (starOut k).map (fun i => (i, b)) by rw [setv, if_pos rfl]]
  have hrest := iterateRound_star_spokes k d
    (round4 ((1 - d) / ((k : ℚ) + 1)) + round4 (d * ((k : ℚ) * round4 b))) b
    (starOut k) [] (fun j hj => hj) (nodup_starOut k) (by simp)
  simpa using hrest

theorem conv_star_false (prev : Ranks) (a1 : ℚ) (rest : Ranks)
    (h : ¬ |getv prev 0 - a1| ≤ 1 / 1000) :
    ranksConverged prev ((0, a1) :: rest) = false := by
  rw [ranksConverged]
  simp only [List.all_cons]
  rw [decide_eq_false h, Bool.false_and]

theorem conv_star_true (k : Nat) (a1 b1 a2 b2 : ℚ)
    (ha : |a1 - a2| ≤ 1 / 1000) (hb : |b1 - b2| ≤ 1 / 1000) :
    ranksConverged ((0, a1) :: (starOut k).map (fun i => (i, b1)))
      ((0, a2) :: (starOut k).map (fun i => (i, b2))) = true := by
  rw [ranksConverged, List.all_eq_true]
  intro pr hpr
  rcases List.mem_cons.mp hpr with rfl | hpr
  · simpa [getv_cons_self] using ha
  · rcases List.mem_map.mp hpr with ⟨i, hi, rfl⟩
    have hv : getv ((0, a1) :: (starOut k).map (fun x => (x, b1))) i = b1 :=
      getv_star_spoke a1 b1 hi
    simpa [hv] using hb

theorem iterateLoop_succ_eq (corpus : Graph) (d : ℚ) (fuel : Nat) (ranks : Ranks) :
    iterateLoop corpus d (fuel + 1) ranks =
      if ranksConverged ranks (iterateRound corpus d (ranks.map Prod.fst) ranks)
      then some (iterateRound corpus d (ranks.map Prod.fst) ranks)
      else iterateLoop corpus d fuel
        (iterateRound corpus d (ranks.map Prod.fst) ranks) := rfl

end PageRank

namespace PageRank

/-- The full run of `iterate_pagerank` on the 190-page star with damping
`0.9999`: the initial `1/190` rounds up to `0.0053` in every spoke term, the
hub sums `189` of them to `1.0017` and settles at `1.0016`, the spokes at
`0.0053`; the second round reproduces these values exactly, so the loop
stops there. -/
theorem star_iterate_eval :
    iterate_pagerank exStar (9999 / 10000) 2 =
      some ((0, 10016 / 10000) ::
        (starOut 189).map (fun i => (i, 53 / 10000)), exStar) := by
  have hsink : sinkRewrite (starGraph 189) = starGraph 189 :=
    sinkRewrite_eq_self (starGraph_no_sinks 189 (by norm_num))
  have hA1 : round4 ((1 - 9999 / 10000) / (((189 : Nat) : ℚ) + 1)) +
      round4 ((9999 / 10000) *
        (((189 : Nat) : ℚ) * round4 (1 / (((189 : Nat) : ℚ) + 1)))) =
      10016 / 10000 := by
    norm_num [round4]
  have hB1 : round4 ((1 - 9999 / 10000) / (((189 : Nat) : ℚ) + 1)) +
      round4 ((9999 / 10000) *
        round4 ((10016 / 10000) / ((189 : Nat) : ℚ))) =
      53 / 10000 := by
    norm_num [round4]
  have hA2 : round4 ((1 - 9999 / 10000) / (((189 : Nat) : ℚ) + 1)) +
      round4 ((9999 / 10000) *
        (((189 : Nat) : ℚ) * round4 ((53 : ℚ) / 10000))) =
      10016 / 10000 := by
    norm_num [round4]
  simp only [exStar, iterate_pagerank]
  rw [hsink, star_init 189]
  rw [show (2 : Nat) = 1 + 1 from rfl, iterateLoop_succ_eq]
  rw [star_keys 189, iterateRound_star 189]
  rw [hA1, hB1]
  rw [conv_star_false _ (10016 / 10000) _ ?hfa]
  case hfa =>
    rw [getv_cons_self, abs_of_nonpos (by norm_num)]
    norm_num
  rw [if_neg Bool.false_ne_true]
  rw [show (1 : Nat) = 0 + 1 from rfl, iterateLoop_succ_eq]
  rw [star_keys 189, iterateRound_star 189]
  rw [hA2, hB1]
  rw [conv_star_true 189 (10016 / 10000) (53 / 10000) (10016 / 10000) (53 / 10000)
    (by norm_num) (by norm_num)]
  rw [if_pos rfl]
  rfl

/-- C7 counterexample: both numeric guarantees of the claim fail on concrete
runs.  On `{A: {B}, B: {A}, C: {A}}` with damping `0.999` the loop stops
after two rounds with ranks summing to `1.3313`, not within `1e-3` of `1`;
and on the 190-page star with damping `0.9999` the loop stops with the hub
at rank `1.0016`, outside `[0,1]`. -/
theorem c7_guarantees_fail :
    (iterate_pagerank exSlow (999 / 1000) 2 =
        some ([(0, 6657 / 10000), (1, 6653 / 10000), (2, 3 / 10000)], exSlow) ∧
      vsum [((0 : Page), (6657 : ℚ) / 10000), (1, 6653 / 10000), (2, 3 / 10000)] =
        13313 / 10000 ∧
      ¬ |(13313 : ℚ) / 10000 - 1| ≤ 1 / 1000) ∧
    (iterate_pagerank exStar (9999 / 10000) 2 =
        some ((0, 10016 / 10000) ::
          (starOut 189).map (fun i => (i, 53 / 10000)), exStar) ∧
      getv ((0, 10016 / 10000) ::
        (starOut 189).map (fun i => (i, 53 / 10000))) 0 = 10016 / 10000 ∧
      ¬ ((10016 : ℚ) / 10000 ≤ 1)) := by
  refine ⟨⟨?_, by norm_num [vsum], ?_⟩,
    star_iterate_eval, getv_cons_self _ _ _, by norm_num⟩
  · norm_num [iterate_pagerank, iterateLoop, iterateRound, ranksConverged, calcPageRank,
      sinkRewrite, keys, setv, getv, round4, exSlow, List.foldl, abs_le]
  · rw [abs_of_nonneg (by norm_num)]
    norm_num

end PageRank
